import Mathlib

/-!
Verification of the vdom-rs reconciliation engine's specification against a
shallow embedding of the source.

The embedding covers:
* `Key`, `Path` from `vdom/src/vdom/path.rs`,
* `AttrValue` conversions and the attribute-list diff from `vdom/src/vdom/attr.rs`,
* the `Option`/pair/`TagStatic`/`TagDyn` node diff dispatch from
  `vdom/src/vdom/node/mod.rs` and `vdom/src/vdom/node/tag.rs`,
* `CompNode::diff_rendered` from `vdom/src/vdom/node/comp.rs`,
* the earlier keyed reconciler `diff` / `diff_nodes` from `src/diff.rs`.

Rust `u64` / `usize` values are modelled as `Nat`, `i64` as `Int`; `Rc<String>`
and `String` by their contents (`String`), `Vec<u8>` by `List Nat`.  Driver and
visitor callbacks are modelled by an explicit event trace produced by the diff
functions themselves, together with a caller-supplied result for each callback
(`Except` for the fallible ones); Rust panics and `debug_assert!` failures are
modelled as distinguished outcomes.
-/

/-- Alias for the builtin string type, used inside namespaces where a `String`
constructor of an embedded enum would otherwise shadow it. -/
abbrev RustString := String

namespace Vdom

/-! ### Key (vdom/src/vdom/path.rs) -/

/-- The `Key` enum of `vdom/src/vdom/path.rs`: a discriminated identity token.
`U64`/`I64` carry the integer value, `Str` a `&'static str`, `String` an
`Rc<String>` (modelled by its contents), `Bytes` an `Rc<Vec<u8>>`. -/
inductive Key where
  | U64 (v : Nat)
  | I64 (v : Int)
  | Str (s : String)
  | String (s : String)
  | Bytes (b : List Nat)
deriving DecidableEq, Repr

/-- The `PartialEq for Key` implementation (path.rs lines 13-26), clause by
clause; the wildcard arm returns `false`. -/
def Key.eq : Key → Key → Bool
  | .U64 a, .U64 b => a == b
  | .I64 a, .I64 b => a == b
  | .String a, .String b => a == b
  | .String a, .Str b => a == b
  | .Str a, .String b => a == b
  | .Str a, .Str b => a == b
  | .Bytes a, .Bytes b => a == b
  | _, _ => false

/-- One primitive write fed to a `Hasher` by `Key`'s `Hash` implementation. -/
inductive HashWrite where
  | u8 (v : Nat)
  | u64 (v : Nat)
  | i64 (v : Int)
  | strData (s : String)
  | bytesData (b : List Nat)
deriving DecidableEq, Repr

/-- The data the `Hash for Key` implementation (path.rs lines 28-53) feeds to
the hasher: a discriminant byte (`1`/`2`/`3`/`3`/`4`) followed by the payload.
`Rc<String>` and `&'static str` both hash as the underlying `str` data, so the
payload write is determined by the string contents. -/
def Key.hashData : Key → List HashWrite
  | .U64 v => [.u8 1, .u64 v]
  | .I64 v => [.u8 2, .i64 v]
  | .String v => [.u8 3, .strData v]
  | .Str v => [.u8 3, .strData v]
  | .Bytes v => [.u8 4, .bytesData v]

/-- `impl From<u32> for Key` (via `impl_from_int_for_key!`): `Key::U64(v as u64)`.
The cast `u32 as u64` is value-preserving. -/
def Key.fromU32 (v : Nat) : Key := .U64 v

/-- `impl From<i32> for Key` (via `impl_from_int_for_key!`): `Key::I64(v as i64)`.
The cast `i32 as i64` is value-preserving. -/
def Key.fromI32 (v : Int) : Key := .I64 v

/-- `impl From<String> for Key`: `Key::String(Rc::new(v))`. -/
def Key.fromString (v : RustString) : Key := .String v

/-- `impl From<&'static str> for Key`: `Key::Str(v)`. -/
def Key.fromStr (v : RustString) : Key := .Str v

/-- True on the two string-carrying variants `Key::Str` and `Key::String`. -/
def Key.isStringy : Key → Bool
  | .Str _ => true
  | .String _ => true
  | _ => false

/-- True when the two keys are built from the same `Key` constructor. -/
def Key.sameCtor : Key → Key → Bool
  | .U64 _, .U64 _ => true
  | .I64 _, .I64 _ => true
  | .Str _, .Str _ => true
  | .String _, .String _ => true
  | .Bytes _, .Bytes _ => true
  | _, _ => false

/-! ### Path (vdom/src/vdom/path.rs, lines 130-174) -/

/-- The borrowing `Path<'a>` struct: a value plus an optional parent link,
modelled persistently. -/
inductive Path where
  | mk (value : Key) (parent : Option Path)

/-- `Path::get`: the last segment. -/
def Path.get : Path → Key
  | .mk v _ => v

/-- `Path::parent`. -/
def Path.parent : Path → Option Path
  | .mk _ q => q

/-- `Path::new(value)`: a root path with no parent. -/
def Path.new (value : Key) : Path := .mk value none

/-- `Path::push(value)`: extend `self` by one key; the new path's parent is
`self`. -/
def Path.push (p : Path) (value : Key) : Path := .mk value (some p)

/-- `Path::replace(value)`: a path with the new value and `self`'s parent
link (the last segment is substituted). -/
def Path.replace (p : Path) (value : Key) : Path := .mk value p.parent

/-! ### C6 -/

/-- C6: `Key` equality identifies owned and borrowed string representations:
for every string `s`, `Key::String(Rc::new(s))` equals `Key::Str` of a static
string with the same bytes, in both argument orders; and the hash is
consistent with this equality: any two keys that compare equal feed identical
data (discriminant byte plus payload) to the hasher — in particular the
`String`/`Str` pair shares discriminant tag `3`. -/
theorem key_eq_cross_rep_and_hash_consistent :
    (∀ s : String, Key.eq (.String s) (.Str s) = true
      ∧ Key.eq (.Str s) (.String s) = true)
    ∧ (∀ k1 k2 : Key, Key.eq k1 k2 = true → Key.hashData k1 = Key.hashData k2) := by
  constructor
  · intro s
    constructor <;> simp [Key.eq]
  · intro k1 k2 h
    cases k1 <;> cases k2 <;> simp_all [Key.eq, Key.hashData]

/-- Witness for C6: a concrete `String`/`Str` pair with equal contents compares
equal and yields identical hasher input. -/
theorem key_eq_cross_rep_and_hash_consistent_witness :
    Key.hashData (.String "row") = Key.hashData (.Str "row") :=
  key_eq_cross_rep_and_hash_consistent.2 (.String "row") (.Str "row") (by decide)

/-! ### C9 -/

/-- C9: `Key` equality never crosses non-string variants: `U64 n` never equals
`I64 m` (so a key built `From<u32>` never equals one built `From<i32>` of the
same value), `Bytes` never equals `String` even for coinciding contents, and
any two equal keys are built from the same constructor except for the
`Str`/`String` pair. -/
theorem key_eq_no_cross_variant :
    (∀ (n : Nat) (m : Int), Key.eq (.U64 n) (.I64 m) = false
      ∧ Key.eq (.I64 m) (.U64 n) = false)
    ∧ (∀ v : Nat, Key.eq (Key.fromU32 v) (Key.fromI32 (Int.ofNat v)) = false)
    ∧ (∀ (b : List Nat) (s : String), Key.eq (.Bytes b) (.String s) = false
      ∧ Key.eq (.String s) (.Bytes b) = false)
    ∧ (∀ k1 k2 : Key, Key.eq k1 k2 = true →
        Key.sameCtor k1 k2 = true
        ∨ (Key.isStringy k1 = true ∧ Key.isStringy k2 = true)) := by
  refine ⟨?_, ?_, ?_, ?_⟩
  · intro n m
    constructor <;> rfl
  · intro v
    rfl
  · intro b s
    constructor <;> rfl
  · intro k1 k2 h
    cases k1 <;> cases k2 <;> simp_all [Key.eq, Key.sameCtor, Key.isStringy]

/-- Witness for C9: the same-constructor-or-stringy consequence applied to a
concrete equal pair of keys. -/
theorem key_eq_no_cross_variant_witness :
    Key.sameCtor (.U64 7) (.U64 7) = true
    ∨ (Key.isStringy (.U64 7) = true ∧ Key.isStringy (.U64 7) = true) :=
  key_eq_no_cross_variant.2.2.2 (.U64 7) (.U64 7) (by decide)

/-! ### C10 -/

/-- C10: path extension satisfies the constructor/observer round trip:
`p.push(k).get() = k`, `p.push(k).parent() = Some(p)`, and `replace`
substitutes only the last segment: `p.push(k1).replace(k2) = p.push(k2)`
(same value, same parent link). -/
theorem path_push_get_parent_replace (p : Path) (k k1 k2 : Key) :
    (p.push k).get = k
    ∧ (p.push k).parent = some p
    ∧ (p.push k1).replace k2 = p.push k2 := by
  refine ⟨rfl, rfl, rfl⟩

/-! ### Attribute values (vdom/src/vdom/attr.rs, lines 3-75) -/

/-- The `AttrValue` enum: boolean-true presence, absence (`Null`), a static
string payload, or an owned string payload. -/
inductive AttrValue where
  | True
  | Null
  | Str (s : String)
  | String (s : String)
deriving DecidableEq, Repr

/-- `impl From<bool> for AttrValue` (attr.rs lines 11-18). -/
def AttrValue.fromBool : Bool → AttrValue
  | true => .True
  | false => .Null

/-- `impl From<Option<()>> for AttrValue` (attr.rs lines 20-27). -/
def AttrValue.fromOptionUnit : Option Unit → AttrValue
  | some () => .True
  | none => .Null

/-- `impl From<&'static str> for AttrValue` (attr.rs lines 29-33). -/
def AttrValue.fromStr (v : RustString) : AttrValue := .Str v

/-- `impl From<Option<&'static str>> for AttrValue` (attr.rs lines 35-42). -/
def AttrValue.fromOptionStr : Option RustString → AttrValue
  | some s => .Str s
  | none => .Null

/-- `impl From<String> for AttrValue` (attr.rs lines 44-48). -/
def AttrValue.fromString (v : RustString) : AttrValue := .String v

/-- `impl From<Option<String>> for AttrValue` (attr.rs lines 50-57). -/
def AttrValue.fromOptionString : Option RustString → AttrValue
  | some s => .String s
  | none => .Null

/-- The borrowed `AttrRefValue` enum (attr.rs lines 59-64). -/
inductive AttrRefValue where
  | True
  | Null
  | Str (s : String)
deriving DecidableEq, Repr

/-- `impl From<&AttrValue> for AttrRefValue` (attr.rs lines 66-75): both
`Str` and `String` payloads borrow as `Str`. -/
def AttrRefValue.fromAttrValue : AttrValue → AttrRefValue
  | .True => .True
  | .Null => .Null
  | .Str s => .Str s
  | .String s => .Str s

/-! ### C8 -/

/-- C8: the attribute-value conversions realize boolean/null semantics
exactly: `from(false) = Null`, `from(true) = True`; for `Option<&'static str>`
`from(None) = Null` and `from(Some(s)) = Str(s)`; for `Option<String>`
`from(None) = Null` and `from(Some(s)) = String(s)` — a false boolean
attribute and an absent optional attribute both present `Null`, and a newly
present `Some("y")` presents `Str("y")`. -/
theorem attr_value_from_bool_null_semantics :
    AttrValue.fromBool false = .Null
    ∧ AttrValue.fromBool true = .True
    ∧ AttrValue.fromOptionStr none = .Null
    ∧ (∀ s, AttrValue.fromOptionStr (some s) = .Str s)
    ∧ AttrValue.fromOptionString none = .Null
    ∧ (∀ s, AttrValue.fromOptionString (some s) = .String s) :=
  ⟨rfl, rfl, rfl, fun _ => rfl, rfl, fun _ => rfl⟩

/-! ### Attribute lists (vdom/src/vdom/attr.rs, lines 239-335) -/

/-- The observable interface of the `Attr` trait (attr.rs lines 77-85):
`name()`, `is_value_static()` and `value()`. -/
structure AttrData where
  name : String
  is_value_static : Bool
  value : AttrRefValue
deriving DecidableEq, Repr

/-- The static shape of an `AttrList` composition: `()`, a single
`AttrListEntry`, or a pair `(L1, L2)`. In Rust the shape is part of the type,
so `diff(ancestor: &mut Self)` can only ever see same-shape lists; the index
mirrors that. -/
inductive AttrShape where
  | unit
  | entry
  | pair (s1 s2 : AttrShape)
deriving DecidableEq, Repr

/-- The `AttrList` composition instances: `()` (attr.rs lines 285-302),
`AttrListEntry<A>` (lines 304-335) and `(L1, L2)` (lines 260-283). -/
inductive AttrListT (α : Type) : AttrShape → Type where
  | unit : AttrListT α .unit
  | entry (attr : α) : AttrListT α .entry
  | pair {s1 s2 : AttrShape} (l1 : AttrListT α s1) (l2 : AttrListT α s2) :
      AttrListT α (.pair s1 s2)

/-- The entries of an attribute list, in traversal order (first component of
a pair before the second). -/
def AttrListT.toList {α : Type} : {s : AttrShape} → AttrListT α s → List α
  | _, .unit => []
  | _, .entry a => [a]
  | _, .pair l1 l2 => l1.toList ++ l2.toList

/-- Number of entries determined by an attribute-list shape. -/
def AttrShape.size : AttrShape → Nat
  | .unit => 0
  | .entry => 1
  | .pair s1 s2 => s1.size + s2.size

/-- Outcome of an attribute-list diff: success, a differ error, or a
`debug_assert!` failure. -/
inductive AttrDiffOutcome (ε : Type) where
  | ok
  | err (e : ε)
  | assertFail
deriving DecidableEq, Repr

/-- The `AttrList::diff` implementations, with the trace of
`differ.on_diff(curr, ancestor)` calls made explicit.
`()` does nothing; `(L1, L2)` diffs the first list, short-circuiting on
failure (`?`), then the second; `AttrListEntry` debug-asserts that the names
agree and that a statically-valued current entry has the ancestor's value,
then calls `on_diff` exactly once. -/
def AttrListT.diff {ε : Type} (onDiff : AttrData → AttrData → Except ε Unit) :
    {s : AttrShape} → AttrListT AttrData s → AttrListT AttrData s →
    List (AttrData × AttrData) × AttrDiffOutcome ε
  | _, .unit, .unit => ([], .ok)
  | _, .entry c, .entry a =>
      if c.name = a.name then
        if c.is_value_static = true → c.value = a.value then
          ([(c, a)],
            match onDiff c a with
            | .ok _ => .ok
            | .error e => .err e)
        else ([], .assertFail)
      else ([], .assertFail)
  | _, .pair c1 c2, .pair a1 a2 =>
      match AttrListT.diff onDiff c1 a1 with
      | (tr, .ok) =>
          let r2 := AttrListT.diff onDiff c2 a2
          (tr ++ r2.1, r2.2)
      | (tr, out) => (tr, out)

/-- The entry count of an attribute list is determined by its shape. -/
theorem AttrListT.toList_length {α : Type} :
    ∀ {s : AttrShape} (x : AttrListT α s), x.toList.length = s.size
  | _, .unit => rfl
  | _, .entry _ => rfl
  | _, .pair l1 l2 => by
      simp [AttrListT.toList, AttrShape.size, toList_length l1, toList_length l2]

/-! ### C4 -/

/-- C4: for every attribute-list diff over same-shape lists where the
corresponding names agree, statically-valued entries are unchanged, and the
differ succeeds, every entry results in exactly one
`differ.on_diff(curr_entry, ancestor_entry)` call, the calls happen in list
order, and `on_diff` is called even for entries with `is_value_static` true:
the call trace is exactly the entrywise zip of the two lists. -/
theorem attr_list_diff_every_entry_once {ε : Type}
    (onDiff : AttrData → AttrData → Except ε Unit)
    (hok : ∀ x y, onDiff x y = .ok ())
    {s : AttrShape} (c a : AttrListT AttrData s)
    (hnames : ∀ p ∈ c.toList.zip a.toList, p.1.name = p.2.name)
    (hstatic : ∀ p ∈ c.toList.zip a.toList,
      p.1.is_value_static = true → p.1.value = p.2.value) :
    AttrListT.diff onDiff c a = (c.toList.zip a.toList, .ok) := by
  induction c with
  | unit =>
      cases a
      rfl
  | entry x =>
      cases a with
      | entry y =>
          have hmem : (x, y) ∈ (AttrListT.entry x).toList.zip (AttrListT.entry y).toList := by
            simp [AttrListT.toList]
          have h1 : x.name = y.name := hnames (x, y) hmem
          have h2 : x.is_value_static = true → x.value = y.value := hstatic (x, y) hmem
          simp [AttrListT.diff, AttrListT.toList, h1, h2, hok x y]
          exact h2
  | pair c1 c2 ih1 ih2 =>
      cases a with
      | pair a1 a2 =>
          have hlen : c1.toList.length = a1.toList.length := by
            rw [AttrListT.toList_length, AttrListT.toList_length]
          have hzip : (c1.pair c2).toList.zip (a1.pair a2).toList
              = c1.toList.zip a1.toList ++ c2.toList.zip a2.toList := by
            simp [AttrListT.toList, List.zip_append hlen]
          rw [hzip] at hnames hstatic
          have e1 := ih1 a1
            (fun p hp => hnames p (List.mem_append_left _ hp))
            (fun p hp => hstatic p (List.mem_append_left _ hp))
          have e2 := ih2 a2
            (fun p hp => hnames p (List.mem_append_right _ hp))
            (fun p hp => hstatic p (List.mem_append_right _ hp))
          simp only [AttrListT.diff, e1, e2, hzip]

/-- Witness for C4: a two-entry list (one statically valued, one dynamic)
diffed against a same-name ancestor produces exactly one `on_diff` call per
entry, in order. -/
theorem attr_list_diff_every_entry_once_witness :
    AttrListT.diff (ε := Unit) (fun _ _ => .ok ())
      (.pair (.entry ⟨"id", true, .Str "x"⟩) (.entry ⟨"class", false, .Str "a"⟩))
      (.pair (.entry ⟨"id", true, .Str "x"⟩) (.entry ⟨"class", false, .Str "b"⟩))
    = ([(⟨"id", true, .Str "x"⟩, ⟨"id", true, .Str "x"⟩),
        (⟨"class", false, .Str "a"⟩, ⟨"class", false, .Str "b"⟩)], .ok) :=
  attr_list_diff_every_entry_once (fun _ _ => .ok ()) (fun _ _ => rfl)
    (.pair (.entry ⟨"id", true, .Str "x"⟩) (.entry ⟨"class", false, .Str "a"⟩))
    (.pair (.entry ⟨"id", true, .Str "x"⟩) (.entry ⟨"class", false, .Str "b"⟩))
    (by decide) (by decide)

/-! ### Diff protocol state (vdom/src/vdom/node/mod.rs)

A node diff threads two mutable counters, `curr_index` and `ancestor_index`.
Differ callbacks are fallible; a failing callback short-circuits the
traversal through `?`.  Each `diff`/`visit` function below returns the trace
of differ/visitor callbacks it issued together with the `Result`. -/

/-- The pair of traversal counters threaded through `Node::diff`. -/
structure DiffSt where
  currIndex : Nat
  ancIndex : Nat
deriving DecidableEq, Repr

/-! ### Option node diff (vdom/src/vdom/node/mod.rs, lines 140-173) -/

/-- A differ callback observable during an `Option<N>` diff: the
`on_node_added` / `on_node_removed` channel, or an event from a recursive
inner diff (any callback issued by `N::diff`). -/
inductive OptionDiffEvent (ν τ : Type) where
  | nodeAdded (index : Nat) (curr : ν)
  | nodeRemoved (index : Nat) (ancestor : ν)
  | inner (e : τ)

/-- `impl<D, N> Node<D> for Option<N>::diff`: case analysis on
`(self, ancestor)`.  `dfn` is `N::diff` (returning its own callback trace);
`onNodeAdded`/`onNodeRemoved` are the differ's callbacks, which receive the
index by mutable reference (modelled by returning the possibly-updated
index). -/
def optionDiff {ν τ ε : Type}
    (dfn : ν → ν → DiffSt → List (OptionDiffEvent ν τ) × Except ε DiffSt)
    (onNodeAdded : Nat → ν → Except ε Nat)
    (onNodeRemoved : Nat → ν → Except ε Nat) :
    Option ν → Option ν → DiffSt → List (OptionDiffEvent ν τ) × Except ε DiffSt
  | some curr, some ancestor, st => dfn curr ancestor st
  | some curr, none, st =>
      ([.nodeAdded st.currIndex curr],
        match onNodeAdded st.currIndex curr with
        | .ok ci => .ok ⟨ci, st.ancIndex⟩
        | .error e => .error e)
  | none, some ancestor, st =>
      ([.nodeRemoved st.ancIndex ancestor],
        match onNodeRemoved st.ancIndex ancestor with
        | .ok ai => .ok ⟨st.currIndex, ai⟩
        | .error e => .error e)
  | none, none, st => ([], .ok st)

/-! ### C2 -/

/-- C2: `Option<Node>::diff` behaves by exact case analysis:
`(Some, Some)` recurses into the inner node diff; `(Some, None)` calls
`differ.on_node_added` exactly once with the current node and makes no other
callback; `(None, Some)` calls `differ.on_node_removed` exactly once with the
ancestor and makes no other callback; `(None, None)` makes no callback at all
and returns `Ok`. -/
theorem option_node_diff_dispatch {ν τ ε : Type}
    (dfn : ν → ν → DiffSt → List (OptionDiffEvent ν τ) × Except ε DiffSt)
    (oa orr : Nat → ν → Except ε Nat)
    (curr anc : ν) (st : DiffSt) :
    (optionDiff dfn oa orr (some curr) (some anc) st = dfn curr anc st)
    ∧ ((optionDiff dfn oa orr (some curr) none st).1
        = [.nodeAdded st.currIndex curr]
      ∧ (∀ ci, oa st.currIndex curr = .ok ci →
          (optionDiff dfn oa orr (some curr) none st).2 = .ok ⟨ci, st.ancIndex⟩)
      ∧ (∀ e, oa st.currIndex curr = .error e →
          (optionDiff dfn oa orr (some curr) none st).2 = .error e))
    ∧ ((optionDiff dfn oa orr none (some anc) st).1
        = [.nodeRemoved st.ancIndex anc]
      ∧ (∀ ai, orr st.ancIndex anc = .ok ai →
          (optionDiff dfn oa orr none (some anc) st).2 = .ok ⟨st.currIndex, ai⟩)
      ∧ (∀ e, orr st.ancIndex anc = .error e →
          (optionDiff dfn oa orr none (some anc) st).2 = .error e))
    ∧ optionDiff dfn oa orr none none st = ([], .ok st) := by
  refine ⟨rfl, ⟨rfl, ?_, ?_⟩, ⟨rfl, ?_, ?_⟩, rfl⟩ <;>
    intro x h <;> simp [optionDiff, h]

/-- Witness for C2: with a differ whose `on_node_added` succeeds and bumps the
index, diffing `(Some 5, None)` returns `Ok` with the updated index. -/
theorem option_node_diff_dispatch_witness :
    (optionDiff (τ := Unit) (ε := Unit)
      (fun _ _ st => ([], .ok st)) (fun i _ => .ok (i + 1)) (fun i _ => .ok i)
      (some 5) none ⟨0, 0⟩).2 = .ok ⟨1, 0⟩ :=
  (option_node_diff_dispatch (fun _ _ st => ([], .ok st))
    (fun i _ => .ok (i + 1)) (fun i _ => .ok i) 5 5 ⟨0, 0⟩).2.1.2.1 1 rfl

/-! ### Pair node composition (vdom/src/vdom/node/mod.rs, lines 84-113) -/

/-- `impl<D, L1, L2> Node<D> for (L1, L2)::diff`: diff the first component;
the `?` operator propagates its error before the second component is
touched. -/
def pairNodeDiff {α β τ ε : Type}
    (d1 : α → α → DiffSt → List τ × Except ε DiffSt)
    (d2 : β → β → DiffSt → List τ × Except ε DiffSt)
    (curr ancestor : α × β) (st : DiffSt) : List τ × Except ε DiffSt :=
  match d1 curr.1 ancestor.1 st with
  | (tr, .error e) => (tr, .error e)
  | (tr, .ok st1) =>
      let r2 := d2 curr.2 ancestor.2 st1
      (tr ++ r2.1, r2.2)

/-- `impl<D, L1, L2> Node<D> for (L1, L2)::visit`: visit the first component;
`?` propagates its error before the second component is visited. -/
def pairNodeVisit {α β τ ε : Type}
    (v1 : α → Nat → List τ × Except ε Nat)
    (v2 : β → Nat → List τ × Except ε Nat)
    (node : α × β) (index : Nat) : List τ × Except ε Nat :=
  match v1 node.1 index with
  | (tr, .error e) => (tr, .error e)
  | (tr, .ok i1) =>
      let r2 := v2 node.2 i1
      (tr ++ r2.1, r2.2)

/-! ### C5 -/

/-- C5: for a composed node pair `(L1, L2)`, if diffing (or visiting) the
first component returns an error `e`, the pair diff (visit) returns that same
error `e`, and the second component is never diffed (visited): the callback
trace is exactly the first component's trace, with no event attributable to
the second component. -/
theorem pair_node_first_error_short_circuits {α β τ ε : Type}
    (d1 : α → α → DiffSt → List τ × Except ε DiffSt)
    (d2 : β → β → DiffSt → List τ × Except ε DiffSt)
    (v1 : α → Nat → List τ × Except ε Nat)
    (v2 : β → Nat → List τ × Except ε Nat)
    (c a : α × β) (st : DiffSt) (i : Nat)
    (tr tr' : List τ) (e e' : ε)
    (hd : d1 c.1 a.1 st = (tr, .error e))
    (hv : v1 c.1 i = (tr', .error e')) :
    pairNodeDiff d1 d2 c a st = (tr, .error e)
    ∧ pairNodeVisit v1 v2 c i = (tr', .error e') := by
  constructor
  · simp [pairNodeDiff, hd]
  · simp [pairNodeVisit, hv]

/-- Witness for C5: a first component failing with a one-event trace makes the
pair diff and visit fail identically, with the second component's callbacks
absent. -/
theorem pair_node_first_error_short_circuits_witness :
    pairNodeDiff (τ := Nat) (ε := String)
      (fun _ _ _ => ([7], .error "boom")) (fun _ _ st => ([99], .ok st))
      ((), ()) ((), ()) ⟨0, 0⟩ = ([7], .error "boom")
    ∧ pairNodeVisit (τ := Nat) (ε := String)
      (fun _ _ => ([8], .error "bang")) (fun _ i => ([99], .ok i))
      ((), ()) 0 = ([8], .error "bang") :=
  pair_node_first_error_short_circuits
    (fun _ _ _ => ([7], .error "boom")) (fun _ _ st => ([99], .ok st))
    (fun _ _ => ([8], .error "bang")) (fun _ i => ([99], .ok i))
    ((), ()) ((), ()) ⟨0, 0⟩ 0 [7] [8] "boom" "bang" rfl rfl

/-! ### Tag nodes (vdom/src/vdom/node/tag.rs) -/

/-- The `TagStatic<D, C, A>` struct: a `&'static str` tag name, children,
attribute list and driver-store slot. -/
structure TagStatic (χ α δ : Type) where
  tag : String
  children : χ
  attrs : α
  driver_store : δ

/-- The `TagDyn<D, C, A>` struct: a `Cow<'static, str>` tag name, children,
attribute list and driver-store slot. -/
structure TagDyn (χ α δ : Type) where
  tag : String
  children : χ
  attrs : α
  driver_store : δ

/-- `Tag::is_tag_static` for `TagStatic` (tag.rs lines 62-64). -/
def TagStatic.is_tag_static {χ α δ : Type} (_ : TagStatic χ α δ) : Bool := true

/-- `Tag::is_tag_static` for `TagDyn` (tag.rs lines 173-175). -/
def TagDyn.is_tag_static {χ α δ : Type} (_ : TagDyn χ α δ) : Bool := false

/-- The single differ callback a tag-node `diff` can issue:
`differ.on_tag(curr_index, ancestor_index, curr, ancestor)`. -/
inductive TagDiffEvent (T : Type) where
  | onTag (currIndex ancIndex : Nat) (curr ancestor : T)

/-- Outcome of a tag-node diff: success with updated indices, a differ error,
or a `debug_assert!` failure (a debug-build panic). -/
inductive NodeDiffResult (ε : Type) where
  | ok (st : DiffSt)
  | err (e : ε)
  | debugAssertFail
deriving DecidableEq, Repr

/-- `impl Node<D> for TagStatic::diff` (tag.rs lines 119-135):
`debug_assert_eq!(self.tag, ancestor.tag)`, then `differ.on_tag` with the
index values, then both indices are incremented (skipped if `on_tag`
errors, since `?` returns early). -/
def TagStatic.diff {χ α δ ε : Type}
    (cb : Nat → Nat → TagStatic χ α δ → TagStatic χ α δ → Except ε Unit)
    (curr ancestor : TagStatic χ α δ) (st : DiffSt) :
    List (TagDiffEvent (TagStatic χ α δ)) × NodeDiffResult ε :=
  if curr.tag = ancestor.tag then
    ([.onTag st.currIndex st.ancIndex curr ancestor],
      match cb st.currIndex st.ancIndex curr ancestor with
      | .ok _ => .ok ⟨st.currIndex + 1, st.ancIndex + 1⟩
      | .error e => .err e)
  else ([], .debugAssertFail)

/-- `impl Node<D> for TagDyn::diff` (tag.rs lines 230-244): no assertion;
`differ.on_tag`, then both indices are incremented. -/
def TagDyn.diff {χ α δ ε : Type}
    (cb : Nat → Nat → TagDyn χ α δ → TagDyn χ α δ → Except ε Unit)
    (curr ancestor : TagDyn χ α δ) (st : DiffSt) :
    List (TagDiffEvent (TagDyn χ α δ)) × NodeDiffResult ε :=
  ([.onTag st.currIndex st.ancIndex curr ancestor],
    match cb st.currIndex st.ancIndex curr ancestor with
    | .ok _ => .ok ⟨st.currIndex + 1, st.ancIndex + 1⟩
    | .error e => .err e)

/-! ### C7 -/

/-- C7: `TagStatic::diff` debug-asserts equality of the static tag names:
under the precondition that they are equal the assertion never fires, the
differ's `on_tag` callback is invoked exactly once with both nodes and the
current index values, and on callback success both indices are incremented by
exactly one; with unequal names the assertion fires.  `TagDyn::diff` performs
no such assertion: it issues the same single callback and increments for
arbitrary tag names. -/
theorem tag_static_diff_assert_callback_indices {χ α δ ε : Type}
    (cb : Nat → Nat → TagStatic χ α δ → TagStatic χ α δ → Except ε Unit)
    (cbd : Nat → Nat → TagDyn χ α δ → TagDyn χ α δ → Except ε Unit)
    (curr ancestor : TagStatic χ α δ) (currD ancD : TagDyn χ α δ) (st : DiffSt) :
    (curr.tag = ancestor.tag →
      (TagStatic.diff cb curr ancestor st).1
        = [.onTag st.currIndex st.ancIndex curr ancestor]
      ∧ (TagStatic.diff cb curr ancestor st).2 ≠ .debugAssertFail
      ∧ (cb st.currIndex st.ancIndex curr ancestor = .ok () →
          (TagStatic.diff cb curr ancestor st).2
            = .ok ⟨st.currIndex + 1, st.ancIndex + 1⟩))
    ∧ (curr.tag ≠ ancestor.tag →
        TagStatic.diff cb curr ancestor st = ([], .debugAssertFail))
    ∧ ((TagDyn.diff cbd currD ancD st).1
        = [.onTag st.currIndex st.ancIndex currD ancD]
      ∧ (cbd st.currIndex st.ancIndex currD ancD = .ok () →
          (TagDyn.diff cbd currD ancD st).2
            = .ok ⟨st.currIndex + 1, st.ancIndex + 1⟩)) := by
  refine ⟨?_, ?_, rfl, ?_⟩
  · intro h
    refine ⟨by simp [TagStatic.diff, h], ?_, ?_⟩
    · cases hcb : cb st.currIndex st.ancIndex curr ancestor <;>
        simp [TagStatic.diff, h, hcb]
    · intro hcb
      simp [TagStatic.diff, h, hcb]
  · intro h
    simp [TagStatic.diff, h]
  · intro hcb
    simp [TagDyn.diff, hcb]

/-- Witness for C7: equal static tag names with a succeeding callback give one
`on_tag` call and both indices incremented from `(4, 9)` to `(5, 10)`. -/
theorem tag_static_diff_assert_callback_indices_witness :
    (TagStatic.diff (χ := Unit) (α := Unit) (δ := Unit) (ε := Unit)
      (fun _ _ _ _ => .ok ())
      ⟨"div", (), (), ()⟩ ⟨"div", (), (), ()⟩ ⟨4, 9⟩).2 = .ok ⟨5, 10⟩ :=
  ((tag_static_diff_assert_callback_indices
      (fun _ _ _ _ => .ok ()) (fun _ _ _ _ => .ok ())
      ⟨"div", (), (), ()⟩ ⟨"div", (), (), ()⟩
      ⟨"d", (), (), ()⟩ ⟨"d", (), (), ()⟩ ⟨4, 9⟩).1 rfl).2.2 rfl

/-! ### Component memoization (vdom/src/vdom/node/comp.rs) -/

/-- The `CompNodeCompRendered<D, C>` enum (comp.rs lines 30-38): the cached
Snapshot slot of a `CompNode`.  `Rendered` carries the cloned component
state, the cloned input, and the rendered subtree. -/
inductive CompNodeCompRendered (C I R : Type) where
  | NotRendered
  | Rendered (comp : C) (input : I) (rendered : R)
  | Taken
deriving DecidableEq, Repr

/-- The fields of `CompNode<D, C>` relevant to `diff_rendered`: the snapshot
slot and the live component context.  A mounted `comp_ctx` holds the live
`CompInstance`'s `(comp, input)` pair (`StrongCompCtx::instance_mut`). -/
structure CompNode (C I R : Type) where
  comp_rendered : CompNodeCompRendered C I R
  comp_ctx : Option (C × I)
deriving DecidableEq, Repr

/-- Result of a `CompNode::diff_rendered` call: the trace of differ callbacks
issued while diffing the rendered subtree, the number of `Comp::render`
invocations, the final snapshot slots of the current node and the ancestor,
and the returned `Result`. -/
structure CompDiffOut (C I R τ ε : Type) where
  trace : List τ
  renderCalls : Nat
  selfRendered : CompNodeCompRendered C I R
  ancestorRendered : CompNodeCompRendered C I R
  result : Except ε DiffSt
deriving Repr

/-- `CompNode::diff_rendered` (comp.rs lines 104-153).  `eqC`/`eqI` are the
`Eq` implementations of the component state and input types, `render` is
`Comp::render`, `dfn` is `Rendered::diff` on the rendered subtree.  `none`
models the `panic!`/`expect` paths (ancestor not rendered, snapshot already
taken, missing `comp_ctx`).  When the ancestor's snapshot is `Taken` and the
current node is `Rendered`, the function returns `Ok` immediately; when the
current node is `NotRendered`, the live instance's `(state, input)` is
compared with the ancestor's snapshot: on equality the ancestor's snapshot is
moved into the current node (`mem::replace(.., Taken)`) and the function
returns `Ok` without rendering or diffing; otherwise `render` is called once
and the new rendered subtree is diffed against the ancestor's. -/
def CompNode.diff_rendered {C I R τ ε : Type}
    (eqC : C → C → Bool) (eqI : I → I → Bool) (render : C → I → R)
    (dfn : R → R → DiffSt → List τ × Except ε DiffSt)
    (self ancestor : CompNode C I R) (st : DiffSt) :
    Option (CompDiffOut C I R τ ε) :=
  match ancestor.comp_rendered with
  | .NotRendered => none
  | .Taken =>
      match self.comp_rendered with
      | .NotRendered => none
      | .Rendered sc si sr => some ⟨[], 0, .Rendered sc si sr, .Taken, .ok st⟩
      | .Taken => none
  | .Rendered ac ai ar =>
      match self.comp_rendered with
      | .NotRendered =>
          match self.comp_ctx with
          | none => none
          | some (comp, input) =>
              if eqC ac comp && eqI ai input then
                some ⟨[], 0, .Rendered ac ai ar, .Taken, .ok st⟩
              else
                let r := render comp input
                let d := dfn r ar st
                some ⟨d.1, 1, .Rendered comp input r, .Rendered ac ai ar, d.2⟩
      | .Rendered sc si sr =>
          let d := dfn sr ar st
          some ⟨d.1, 0, .Rendered sc si sr, .Rendered ac ai ar, d.2⟩
      | .Taken => none

/-! ### C1 -/

/-- C1: for a `CompNode` diff where the current node has not yet rendered and
the ancestor holds a cached Snapshot: if the snapshot's component state and
input equal the live instance's state and input, `diff_rendered` moves the
ancestor's Snapshot into the current node (leaving `Taken` behind), calls
`render` zero times, issues no differ callback for the rendered subtree, and
returns `Ok`; if state or input are unequal, it calls `render` exactly once
with the current `(state, input)` and diffs the new rendered subtree against
the ancestor's rendered subtree, returning that diff's trace and result. -/
theorem comp_node_diff_rendered_snapshot_reuse {C I R τ ε : Type}
    (eqC : C → C → Bool) (eqI : I → I → Bool) (render : C → I → R)
    (dfn : R → R → DiffSt → List τ × Except ε DiffSt)
    (self ancestor : CompNode C I R) (st : DiffSt)
    (comp : C) (input : I) (ac : C) (ai : I) (ar : R)
    (hself : self.comp_rendered = .NotRendered)
    (hctx : self.comp_ctx = some (comp, input))
    (hanc : ancestor.comp_rendered = .Rendered ac ai ar) :
    (eqC ac comp = true → eqI ai input = true →
      CompNode.diff_rendered eqC eqI render dfn self ancestor st
        = some ⟨[], 0, .Rendered ac ai ar, .Taken, .ok st⟩)
    ∧ ((eqC ac comp && eqI ai input) = false →
      CompNode.diff_rendered eqC eqI render dfn self ancestor st
        = some ⟨(dfn (render comp input) ar st).1, 1,
            .Rendered comp input (render comp input), .Rendered ac ai ar,
            (dfn (render comp input) ar st).2⟩) := by
  constructor
  · intro h1 h2
    simp [CompNode.diff_rendered, hself, hctx, hanc, h1, h2]
  · intro h
    simp [CompNode.diff_rendered, hself, hctx, hanc, h]

/-- Witness for C1: with state and input structurally equal, a concrete
`CompNode` diff reuses the ancestor's snapshot without rendering; a subtree
differ that would record an event is never consulted. -/
theorem comp_node_diff_rendered_snapshot_reuse_witness :
    CompNode.diff_rendered (C := Nat) (I := Nat) (R := Nat) (τ := Nat) (ε := Unit)
      (fun a b => a == b) (fun a b => a == b) (fun c i => c + i)
      (fun r a st => ([r + a], .ok st))
      ⟨.NotRendered, some (3, 4)⟩ ⟨.Rendered 3 4 7, none⟩ ⟨0, 0⟩
      = some ⟨[], 0, .Rendered 3 4 7, .Taken, .ok ⟨0, 0⟩⟩ :=
  (comp_node_diff_rendered_snapshot_reuse
    (fun a b => a == b) (fun a b => a == b) (fun c i => c + i)
    (fun r a st => ([r + a], .ok st))
    ⟨.NotRendered, some (3, 4)⟩ ⟨.Rendered 3 4 7, none⟩ ⟨0, 0⟩
    3 4 3 4 7 rfl rfl rfl).1 rfl rfl

/-! ### The earlier keyed reconciler (src/diff.rs, src/node.rs, src/path.rs)

The `Key` enum of `src/path.rs` is definitionally identical to the one of
`vdom/src/vdom/path.rs` embedded above, so it is shared.  `diff.rs`
destructures children as `(Option<Key>, Child)` pairs, which is what the
embedding uses.  The `Widget` child variant (stateful, reached through
type-erased `WidgetDataTrait` holders) is outside the fragment the keyed
reconciliation claim touches and is not part of this embedding; the
`Text`/`Node` fragment is embedded in full. -/

/-- The `Ident` enum of `src/path.rs`: a key, or a non-keyed index (keyed
nodes are not counted into it). -/
inductive Ident where
  | Key (k : Vdom.Key)
  | Index (i : Nat)
deriving DecidableEq, Repr

/-- A `PathFrame` (src/path.rs) as the root-to-leaf sequence of idents it
denotes. -/
def PathFrame := List Ident
deriving DecidableEq, Repr

/-- `PathFrame::new()`: the root frame carries `Ident::Key("".into())`. -/
def PathFrame.root : PathFrame := [Ident.Key (.Str "")]

/-- `PathFrame::add_key`. -/
def PathFrame.add_key (pf : PathFrame) (k : Key) : PathFrame :=
  List.append pf [Ident.Key k]

/-- `PathFrame::add_index`. -/
def PathFrame.add_index (pf : PathFrame) (i : Nat) : PathFrame :=
  List.append pf [Ident.Index i]

mutual
/-- The `Child` enum of `src/node.rs` (`Text`/`Node` fragment). -/
inductive Child where
  | Text (s : String)
  | Node (n : Node)

/-- The `Node` struct of `src/node.rs`: element type, ordered children
tagged with their optional key, the key-to-position map `keyed_children`
(`HashMap<Key, usize>`, modelled as an association list), attributes
(`HashMap<Str, Str>`) and event listeners (the set of registered `TypeId`s,
modelled as a list of numeric ids). -/
inductive Node where
  | mk (ty : String) (children : List (Option Key × Child))
      (keyed_children : List (Key × Nat))
      (attributes : List (String × String))
      (event_listeners : List Nat)
end

/-- Field accessor `ty`. -/
def Node.ty : Node → String
  | .mk t _ _ _ _ => t

/-- Field accessor `children`. -/
def Node.children : Node → List (Option Key × Child)
  | .mk _ c _ _ _ => c

/-- Field accessor `keyed_children`. -/
def Node.keyed_children : Node → List (Key × Nat)
  | .mk _ _ kc _ _ => kc

/-- Field accessor `attributes`. -/
def Node.attributes : Node → List (String × String)
  | .mk _ _ _ a _ => a

/-- Field accessor `event_listeners`. -/
def Node.event_listeners : Node → List Nat
  | .mk _ _ _ _ e => e

/-- `HashMap::get` on the `keyed_children` map (key comparison is `Key`'s
`PartialEq`). -/
def kcGet (m : List (Key × Nat)) (k : Key) : Option Nat :=
  (m.find? fun p => Key.eq p.1 k).map fun p => p.2

/-- `HashMap::contains_key` on the `keyed_children` map. -/
def kcContains (m : List (Key × Nat)) (k : Key) : Bool :=
  m.any fun p => Key.eq p.1 k

/-- `HashMap::get` on the attribute map. -/
def attrsGet (m : List (String × String)) (n : String) : Option String :=
  (m.find? fun p => p.1 == n).map fun p => p.2

/-- `HashMap::contains_key` on the attribute map. -/
def attrsContains (m : List (String × String)) (n : String) : Bool :=
  m.any fun p => p.1 == n

/-- One driver call made by the `Differ` of `src/diff.rs` (its private
methods `node_added`, `node_removed`, `text_added`, `text_changed`,
`text_removed`, `attribute_added`, `attribute_changed`, `attribute_removed`,
`node_reordered`), plus the `ListenerManager` register/unregister calls made
during a diff. -/
inductive DCall where
  | node_added (pf : PathFrame) (index : Nat) (ty : String)
  | node_removed (pf : PathFrame)
  | text_added (pf : PathFrame) (index : Nat) (s : String)
  | text_changed (pf : PathFrame) (s : String)
  | text_removed (pf : PathFrame)
  | attribute_added (pf : PathFrame) (name value : String)
  | attribute_changed (pf : PathFrame) (name value : String)
  | attribute_removed (pf : PathFrame) (name : String)
  | node_reordered (pf : PathFrame) (index : Nat)
  | listener_registered (pf : PathFrame) (id : Nat)
  | listener_unregistered (pf : PathFrame) (id : Nat)
deriving DecidableEq, Repr

/-- The per-entry body of the first `diff_attributes` loop: a changed event
when the ancestor value differs, an added event when the name is new, nothing
when the value is unchanged. -/
def diff_attr_entry (pf : PathFrame) (lastAttrs : List (String × String))
    (p : String × String) : List DCall :=
  match attrsGet lastAttrs p.1 with
  | some lv => if lv ≠ p.2 then [.attribute_changed pf p.1 p.2] else []
  | none => [.attribute_added pf p.1 p.2]

/-- `diff_attributes` (diff.rs lines 199-217): changed/added events for the
current attributes, then removed events for vanished attribute names. -/
def diff_attributes (pf : PathFrame) (last curr : Node) : List DCall :=
  (curr.attributes.flatMap (diff_attr_entry pf last.attributes))
  ++ (last.attributes.filter fun p => !attrsContains curr.attributes p.1).map
      fun p => .attribute_removed pf p.1

/-- `diff_event_listeners` (diff.rs lines 219-231): every current listener is
(re-)registered; listeners whose `TypeId` vanished are unregistered. -/
def diff_event_listeners (pf : PathFrame) (last curr : Node) : List DCall :=
  (curr.event_listeners.map fun id => .listener_registered pf id)
  ++ (last.event_listeners.filter fun id => !curr.event_listeners.contains id).map
      fun id => .listener_unregistered pf id

mutual
/-- Structural size of a child, used as the termination measure of the
mutually recursive diff functions. -/
def Child.size : Child → Nat
  | .Text _ => 1
  | .Node n => 1 + n.size

/-- Structural size of a node. -/
def Node.size : Node → Nat
  | .mk _ children _ _ _ => 1 + childrenSize children

/-- Structural size of a children list. -/
def childrenSize : List (Option Key × Child) → Nat
  | [] => 0
  | (_, c) :: t => 1 + c.size + childrenSize t
end

/-- Size of the optional child on one side of a `diff` call, for the
termination measure. -/
def osize : Option Child → Nat
  | none => 0
  | some c => c.size

/-- Every child has positive size. -/
theorem Child.size_pos (c : Child) : 0 < c.size := by
  cases c with
  | Text s => simp [Child.size]
  | Node n => simp [Child.size]

/-- Children are structurally smaller than their node. -/
theorem Node.childrenSize_lt (n : Node) : childrenSize n.children < n.size := by
  cases n with
  | mk t c kc a e => simp [Node.children, Node.size]

/-- The child component of a children-list entry is smaller than the list. -/
theorem size_snd_lt_of_mem {p : Option Key × Child}
    {L : List (Option Key × Child)} (h : p ∈ L) : p.2.size < childrenSize L := by
  induction L with
  | nil => cases h
  | cons a t ih =>
      rcases List.mem_cons.1 h with h1 | h1
      · subst h1
        cases p with
        | mk k c => simp [childrenSize]; omega
      · have := ih h1
        cases a with
        | mk k c => simp [childrenSize]; omega

/-- Indexing into the children list yields a smaller child. -/
theorem size_snd_lt_of_getElem {L : List (Option Key × Child)} {i : Nat}
    {p : Option Key × Child} (h : L[i]? = some p) : p.2.size < childrenSize L :=
  size_snd_lt_of_mem (List.getElem?_mem h)

/-- The keyed-ancestor lookup of the child loop produces a child bounded by
the children-list size. -/
theorem osize_keyed_lookup (l : Node) (k : Key) :
    osize (((kcGet l.keyed_children k).bind fun i => l.children[i]?).map Prod.snd)
      ≤ childrenSize l.children := by
  cases hkc : kcGet l.keyed_children k with
  | none => simp [hkc, osize]
  | some i =>
      cases hch : l.children[i]? with
      | none => simp [hkc, hch, osize]
      | some p =>
          have h := size_snd_lt_of_getElem hch
          simp [hkc, hch, osize]
          omega

/-- Dropping a prefix does not increase the list size. -/
theorem childrenSize_drop_le (L : List (Option Key × Child)) (n : Nat) :
    childrenSize (L.drop n) ≤ childrenSize L := by
  induction L generalizing n with
  | nil => cases n <;> simp
  | cons a t ih =>
      cases n with
      | zero => simp
      | succ m =>
          have := ih m
          cases a with
          | mk k c =>
              simp [List.drop, childrenSize]
              omega

mutual

/-- The free function `diff` of diff.rs (lines 361-447), restricted to the
`Text`/`Node` child fragment: the `(Some, Some)` same-variant cases diff in
place (a `ty` mismatch tears down and rebuilds), the mismatched-variant
catch-all removes the old child then adds the new one, `(None, Some)` adds,
`(Some, None)` removes, `(None, None)` does nothing. -/
def diff (pf : PathFrame) (index : Nat) :
    Option Child → Option Child → List DCall
  | some (.Node l), some (.Node c) =>
      if l.ty ≠ c.ty then node_removed pf l ++ node_added pf index c
      else diff_nodes pf l c
  | some (.Text l), some (.Text c) =>
      if l ≠ c then [.text_changed pf c] else []
  | some (.Text l), some (.Node c) =>
      diff pf index (some (.Text l)) none ++ diff pf index none (some (.Node c))
  | some (.Node l), some (.Text c) =>
      diff pf index (some (.Node l)) none ++ diff pf index none (some (.Text c))
  | none, some (.Node c) => node_added pf index c
  | none, some (.Text c) => [.text_added pf index c]
  | some (.Node l), none => node_removed pf l
  | some (.Text _), none => [.text_removed pf]
  | none, none => []
termination_by ol oc => osize ol + osize oc
decreasing_by
  all_goals simp [osize, Child.size]
  all_goals omega

/-- `diff_nodes` (diff.rs lines 233-310): diff attributes and listeners, walk
the current children (keyed entries are matched through `keyed_children` and
always signal `node_reordered`), then remove leftover non-keyed entries from
`last_index` on and keyed entries whose key is gone. -/
def diff_nodes (pf : PathFrame) (l c : Node) : List DCall :=
  diff_attributes pf l c ++ diff_event_listeners pf l c
  ++ (let r := diff_loop pf l c.children 0 0 0
      r.1 ++ remove_non_keyed pf (l.children.drop r.2.1) r.2.2
        ++ remove_keyed pf c.keyed_children l.children)
termination_by l.size + c.size
decreasing_by
  · have := Node.childrenSize_lt c
    omega
  · have h2 := Node.childrenSize_lt l
    have h3 := Node.childrenSize_lt c
    exact lt_of_le_of_lt (childrenSize_drop_le _ _) (by omega)
  · have h2 := Node.childrenSize_lt l
    have h3 := Node.childrenSize_lt c
    omega

/-- The child loop of `diff_nodes` (lines 240-289).  `index` enumerates the
current children; `lastIndex`/`nonKeyedIndex` are the mutable counters.
A keyed entry is diffed against the ancestor child found through
`keyed_children` (or added if the lookup fails) and then reordered; a
non-keyed entry is diffed against `last.children[last_index]` when that entry
is keyed, skipped when it is non-keyed, and when the ancestor children are
exhausted the remaining non-keyed current children are added and the loop
breaks. -/
def diff_loop (pf : PathFrame) (l : Node)
    (rest : List (Option Key × Child)) (index lastIndex nonKeyedIndex : Nat) :
    List DCall × Nat × Nat :=
  match rest with
  | [] => ([], lastIndex, nonKeyedIndex)
  | (some k, c) :: t =>
      let pf2 := pf.add_key k
      let ev := diff pf2 index
        (((kcGet l.keyed_children k).bind fun i => l.children[i]?).map Prod.snd)
        (some c)
      let r := diff_loop pf l t (index + 1) lastIndex nonKeyedIndex
      (ev ++ [.node_reordered pf2 index] ++ r.1, r.2)
  | (none, c) :: t =>
      match hq : l.children[lastIndex]? with
      | some (some _, lc) =>
          let pf2 := pf.add_index nonKeyedIndex
          let ev := diff pf2 index (some lc) (some c)
          let r := diff_loop pf l t (index + 1) (lastIndex + 1) (nonKeyedIndex + 1)
          (ev ++ r.1, r.2)
      | some (none, _) =>
          diff_loop pf l t (index + 1) (lastIndex + 1) nonKeyedIndex
      | none =>
          let r := add_remaining pf t nonKeyedIndex
          (r.1, lastIndex, r.2)
termination_by l.size + childrenSize rest
decreasing_by
  all_goals simp only [childrenSize]
  all_goals try omega
  all_goals try
    (have h1 : lc.size < childrenSize l.children := size_snd_lt_of_getElem hq
     have h2 := Node.childrenSize_lt l
     have h3 : osize (some lc) = lc.size := rfl
     have h4 : osize (some c) = c.size := rfl
     omega)
  all_goals
    (have h1 := osize_keyed_lookup l k
     have h2 := Node.childrenSize_lt l
     have h4 : osize (some c) = c.size := rfl
     omega)

/-- The inner `for` of the exhausted-ancestor arm (lines 274-284): add every
remaining non-keyed current child.  Note the current child that discovered
the exhaustion is itself skipped, exactly as in the source. -/
def add_remaining (pf : PathFrame) (rest : List (Option Key × Child))
    (nonKeyedIndex : Nat) : List DCall × Nat :=
  match rest with
  | [] => ([], nonKeyedIndex)
  | (some _, _) :: t => add_remaining pf t nonKeyedIndex
  | (none, c) :: t =>
      let ev := diff (pf.add_index nonKeyedIndex) 0 none (some c)
      let r := add_remaining pf t (nonKeyedIndex + 1)
      (ev ++ r.1, r.2)
termination_by childrenSize rest
decreasing_by
  all_goals simp [osize, childrenSize]
  all_goals omega

/-- The non-keyed removal loop (lines 291-299): every non-keyed entry of
`last.children[last_index..]` is removed, with the non-keyed index counter
continuing from the child loop. -/
def remove_non_keyed (pf : PathFrame) (rest : List (Option Key × Child))
    (nonKeyedIndex : Nat) : List DCall :=
  match rest with
  | [] => []
  | (some _, _) :: t => remove_non_keyed pf t nonKeyedIndex
  | (none, ch) :: t =>
      diff (pf.add_index nonKeyedIndex) 0 (some ch) none
        ++ remove_non_keyed pf t (nonKeyedIndex + 1)
termination_by childrenSize rest
decreasing_by
  all_goals simp [osize, childrenSize]
  all_goals omega

/-- The keyed removal loop (lines 301-309): every keyed ancestor entry whose
key is absent from the current `keyed_children` map is removed. -/
def remove_keyed (pf : PathFrame) (ckc : List (Key × Nat))
    (rest : List (Option Key × Child)) : List DCall :=
  match rest with
  | [] => []
  | (some k, ch) :: t =>
      if kcContains ckc k then remove_keyed pf ckc t
      else diff (pf.add_key k) 0 (some ch) none ++ remove_keyed pf ckc t
  | (none, _) :: t => remove_keyed pf ckc t
termination_by childrenSize rest
decreasing_by
  all_goals simp [osize, childrenSize]
  all_goals omega

/-- `node_added` (diff.rs lines 332-347): create the element, add every
attribute, register every listener, then add each child at its path. -/
def node_added (pf : PathFrame) (index : Nat) (c : Node) : List DCall :=
  [.node_added pf index c.ty]
  ++ (c.attributes.map fun p => .attribute_added pf p.1 p.2)
  ++ (c.event_listeners.map fun id => .listener_registered pf id)
  ++ visit_children_add pf c.children 0 0
termination_by c.size
decreasing_by
  have := Node.childrenSize_lt c
  omega

/-- `visit_children` (lines 312-330) as used by `node_added`: each child is
handed its path (keyed or non-keyed) and its enumeration index, and added. -/
def visit_children_add (pf : PathFrame) (rest : List (Option Key × Child))
    (index nonKeyedIndex : Nat) : List DCall :=
  match rest with
  | [] => []
  | (some k, ch) :: t =>
      diff (pf.add_key k) index none (some ch)
        ++ visit_children_add pf t (index + 1) nonKeyedIndex
  | (none, ch) :: t =>
      diff (pf.add_index nonKeyedIndex) index none (some ch)
        ++ visit_children_add pf t (index + 1) (nonKeyedIndex + 1)
termination_by childrenSize rest
decreasing_by
  all_goals simp [osize, childrenSize]
  all_goals omega

/-- `node_removed` (diff.rs lines 349-359): unregister every listener, remove
each child (with index 0), then remove the node itself. -/
def node_removed (pf : PathFrame) (l : Node) : List DCall :=
  (l.event_listeners.map fun id => .listener_unregistered pf id)
  ++ visit_children_remove pf l.children 0
  ++ [.node_removed pf]
termination_by l.size
decreasing_by
  have := Node.childrenSize_lt l
  omega

/-- `visit_children` as used by `node_removed`: each child is removed at its
path; the enumeration index is ignored by the callback. -/
def visit_children_remove (pf : PathFrame) (rest : List (Option Key × Child))
    (nonKeyedIndex : Nat) : List DCall :=
  match rest with
  | [] => []
  | (some k, ch) :: t =>
      diff (pf.add_key k) 0 (some ch) none
        ++ visit_children_remove pf t nonKeyedIndex
  | (none, ch) :: t =>
      diff (pf.add_index nonKeyedIndex) 0 (some ch) none
        ++ visit_children_remove pf t (nonKeyedIndex + 1)
termination_by childrenSize rest
decreasing_by
  all_goals simp [osize, childrenSize]
  all_goals omega

end

/-! ### C3: keyed reconciliation of a pure permutation -/

/-- `Key` equality is reflexive. -/
theorem Key.eq_refl (k : Key) : Key.eq k k = true := by
  cases k <;> simp [Key.eq]

/-- In an attribute map with distinct names, looking up an entry's name finds
that entry's value. -/
theorem attrsGet_self {A : List (String × String)}
    (hnd : (A.map Prod.fst).Nodup) {p : String × String} (hp : p ∈ A) :
    attrsGet A p.1 = some p.2 := by
  induction A with
  | nil => cases hp
  | cons q t ih =>
      rcases List.mem_cons.1 hp with h | h
      · subst h
        simp [attrsGet, List.find?_cons]
      · have hnd' : (t.map Prod.fst).Nodup := (List.nodup_cons.1 (by simpa using hnd)).2
        have hq1 : q.1 ∉ t.map Prod.fst := (List.nodup_cons.1 (by simpa using hnd)).1
        have hne : (q.1 == p.1) = false := by
          by_contra hb
          have hb' : q.1 = p.1 := by
            have : (q.1 == p.1) = true := by
              cases hx : q.1 == p.1
              · exact absurd hx hb
              · rfl
            simpa using this
          exact hq1 (hb' ▸ List.mem_map_of_mem Prod.fst h)
        simp [attrsGet, List.find?_cons, hne] at ih ⊢
        exact ih hnd' h

/-- The changed/added scan of `diff_attributes` produces nothing when every
current entry is present in the ancestor map with the same value. -/
theorem attrs_scan_nil (pf : PathFrame) (B : List (String × String)) :
    ∀ (A : List (String × String)), (∀ p ∈ A, attrsGet B p.1 = some p.2) →
      A.flatMap (diff_attr_entry pf B) = []
  | [], _ => rfl
  | p :: t, h => by
      have hp := h p (List.mem_cons_self p t)
      have ht := attrs_scan_nil pf B t fun q hq => h q (List.mem_cons_of_mem p hq)
      simp [List.flatMap_cons, diff_attr_entry, hp, ht]

/-- `diff_attributes` on identical attribute maps (with distinct names)
produces no driver call. -/
theorem diff_attributes_eq_nil (pf : PathFrame) (l c : Node)
    (hA : l.attributes = c.attributes)
    (hnd : (c.attributes.map Prod.fst).Nodup) :
    diff_attributes pf l c = [] := by
  unfold diff_attributes
  rw [hA]
  have h1 := attrs_scan_nil pf c.attributes c.attributes
    fun p hp => attrsGet_self hnd hp
  have h2 : (c.attributes.filter fun p => !attrsContains c.attributes p.1) = [] := by
    rw [List.filter_eq_nil_iff]
    intro p hp
    have : attrsContains c.attributes p.1 = true :=
      List.any_eq_true.2 ⟨p, hp, by simp⟩
    simp [this]
  rw [h1, h2]
  simp

/-- The children list of a node whose keyed children are text payloads. -/
def mkKeyedChildren (kids : List (Key × RustString)) : List (Option Key × Child) :=
  kids.map fun p => (some p.1, Child.Text p.2)

/-- The `keyed_children` map built by `NodeBuilder::add_keyed_child`
(src/node.rs lines 67-78): each key maps to its position. -/
def mkKC : List (Key × RustString) → Nat → List (Key × Nat)
  | [], _ => []
  | p :: t, i => (p.1, i) :: mkKC t (i + 1)

/-- A node whose children are exactly the given keyed text entries, as built
by repeated `NodeBuilder::add_keyed_child` calls. -/
def mkKeyedTextNode (ty : RustString) (attrs : List (RustString × RustString))
    (kids : List (Key × RustString)) : Node :=
  Node.mk ty (mkKeyedChildren kids) (mkKC kids 0) attrs []

/-- The reorder/position signals for a keyed child list: one
`node_reordered` per entry, in list order, at the entry's keyed path and
enumeration index. -/
def reorderEvents (pf : PathFrame) : List (Key × RustString) → Nat → List DCall
  | [], _ => []
  | p :: t, i => .node_reordered (pf.add_key p.1) i :: reorderEvents pf t (i + 1)

/-- Looking a member key up in the builder's `keyed_children` map finds the
member's position, provided the keys are pairwise distinct under `Key`
equality. -/
theorem kcGet_mkKC :
    ∀ (kids : List (Key × RustString)) (base : Nat) (k : Key) (s : RustString),
      (kids.map Prod.fst).Pairwise (fun a b => Key.eq a b = false) →
      (k, s) ∈ kids →
      ∃ j, kcGet (mkKC kids base) k = some (base + j) ∧ kids[j]? = some (k, s) := by
  intro kids
  induction kids with
  | nil => intro base k s _ h; cases h
  | cons q t ih =>
      intro base k s hpw hmem
      have hpw2 : List.Pairwise (fun a b => Key.eq a b = false)
          (q.1 :: t.map Prod.fst) := by simpa using hpw
      have hpw' : (t.map Prod.fst).Pairwise (fun a b => Key.eq a b = false) :=
        (List.pairwise_cons.1 hpw2).2
      have hhead : ∀ b ∈ t.map Prod.fst, Key.eq q.1 b = false :=
        (List.pairwise_cons.1 hpw2).1
      by_cases hqk : Key.eq q.1 k = true
      · have hq : (k, s) = q := by
          rcases List.mem_cons.1 hmem with h | h
          · exact h
          · exfalso
            have hk : k ∈ t.map Prod.fst := List.mem_map_of_mem Prod.fst h
            rw [hhead k hk] at hqk
            exact Bool.false_ne_true hqk
        refine ⟨0, ?_, ?_⟩
        · simp [mkKC, kcGet, List.find?_cons, hqk]
        · simp [← hq]
      · have hmem' : (k, s) ∈ t := by
          rcases List.mem_cons.1 hmem with h | h
          · exfalso
            apply hqk
            have : q.1 = k := by rw [← h]
            rw [this]
            exact Key.eq_refl k
          · exact h
        obtain ⟨j, hg, hj⟩ := ih (base + 1) k s hpw' hmem'
        refine ⟨j + 1, ?_, ?_⟩
        · have hqk' : Key.eq q.1 k = false := by
            cases hx : Key.eq q.1 k
            · rfl
            · exact absurd hx hqk
          have harith : base + 1 + j = base + (j + 1) := by omega
          simp [mkKC, kcGet, List.find?_cons, hqk'] at hg ⊢
          rw [← harith]
          exact hg
        · simpa using hj

/-- The child loop on an all-keyed current list whose every entry is found in
the ancestor with identical text payload: only reorder signals, in order, and
the counters are untouched. -/
theorem diff_loop_pure_reorder (pf : PathFrame) (l : Node)
    (kids : List (Key × RustString)) (index li nki : Nat) :
    (∀ p ∈ kids, ∃ i, kcGet l.keyed_children p.1 = some i
        ∧ l.children[i]? = some (some p.1, Child.Text p.2)) →
    diff_loop pf l (mkKeyedChildren kids) index li nki
      = (reorderEvents pf kids index, li, nki) := by
  induction kids generalizing index with
  | nil =>
      intro _
      simp [mkKeyedChildren, diff_loop, reorderEvents]
  | cons p t ih =>
      intro H
      obtain ⟨i, hkc, hch⟩ := H p (List.mem_cons_self p t)
      have hbind : ((kcGet l.keyed_children p.1).bind fun j => l.children[j]?)
          = some (some p.1, Child.Text p.2) := by
        rw [hkc]
        simpa using hch
      have ht := ih (index + 1) fun q hq => H q (List.mem_cons_of_mem p hq)
      simp [mkKeyedChildren] at ht ⊢
      simp [diff_loop, hbind, diff, ht, reorderEvents]

/-- The non-keyed removal loop does nothing on an all-keyed children list. -/
theorem remove_non_keyed_keyed_nil (pf : PathFrame)
    (kids : List (Key × RustString)) (nki : Nat) :
    remove_non_keyed pf (mkKeyedChildren kids) nki = [] := by
  induction kids generalizing nki with
  | nil => simp [mkKeyedChildren, remove_non_keyed]
  | cons p t ih => simpa [mkKeyedChildren, remove_non_keyed] using ih nki

/-- A key occurring among the entries is contained in the builder's
`keyed_children` map. -/
theorem kcContains_mkKC (kids : List (Key × RustString)) (base : Nat) (k : Key)
    (h : k ∈ kids.map Prod.fst) : kcContains (mkKC kids base) k = true := by
  induction kids generalizing base with
  | nil => simp at h
  | cons q t ih =>
      by_cases hqk : Key.eq q.1 k = true
      · simp [mkKC, kcContains, hqk]
      · have h2 : k = q.1 ∨ ∃ x, (k, x) ∈ t := by simpa using h
        have h' : k ∈ t.map Prod.fst := by
          rcases h2 with h1 | ⟨x, h1⟩
          · exfalso
            apply hqk
            rw [h1]
            exact Key.eq_refl q.1
          · exact List.mem_map_of_mem Prod.fst h1
        have ht := ih (base + 1) h'
        simp [mkKC, kcContains] at ht ⊢
        right
        exact ht

/-- The keyed removal loop does nothing when every keyed entry's key is still
contained in the current `keyed_children` map. -/
theorem remove_keyed_present_nil (pf : PathFrame) (ckc : List (Key × Nat))
    (kids : List (Key × RustString))
    (h : ∀ p ∈ kids, kcContains ckc p.1 = true) :
    remove_keyed pf ckc (mkKeyedChildren kids) = [] := by
  induction kids with
  | nil => simp [mkKeyedChildren, remove_keyed]
  | cons p t ih =>
      have hp := h p (List.mem_cons_self p t)
      have ht := ih fun q hq => h q (List.mem_cons_of_mem p hq)
      simp [mkKeyedChildren, remove_keyed, hp] at ht ⊢
      simpa using ht

/-- C3: diffing a keyed text child list against a permutation of itself (same
keys with the same payloads, arbitrary order; keys pairwise distinct; same
attributes, no listeners) issues zero node-added, node-removed, text-added or
text-removed driver calls: the trace is exactly one `node_reordered` signal
per current keyed entry, in order, at its keyed path and index.  Every
current key is found in the ancestor's `keyed_children` map and diffed in
place (equal text produces no call), and the trailing removal loops remove
nothing because every ancestor key is still present. -/
theorem diff_nodes_keyed_permutation (pf : PathFrame) (ty : RustString)
    (attrs : List (RustString × RustString))
    (kidsL kidsC : List (Key × RustString))
    (hndA : (attrs.map Prod.fst).Nodup)
    (hpw : (kidsL.map Prod.fst).Pairwise (fun a b => Key.eq a b = false))
    (hperm : kidsC.Perm kidsL) :
    diff_nodes pf (mkKeyedTextNode ty attrs kidsL) (mkKeyedTextNode ty attrs kidsC)
      = reorderEvents pf kidsC 0 := by
  have hmemL : ∀ p ∈ kidsC, ∃ i,
      kcGet (mkKeyedTextNode ty attrs kidsL).keyed_children p.1 = some i
      ∧ (mkKeyedTextNode ty attrs kidsL).children[i]?
          = some (some p.1, Child.Text p.2) := by
    intro p hp
    obtain ⟨k, s⟩ := p
    have hpL : (k, s) ∈ kidsL := hperm.mem_iff.1 hp
    obtain ⟨j, hg, hj⟩ := kcGet_mkKC kidsL 0 k s hpw hpL
    refine ⟨0 + j, ?_, ?_⟩
    · simpa [mkKeyedTextNode, Node.keyed_children] using hg
    · simp [mkKeyedTextNode, Node.children, mkKeyedChildren, List.getElem?_map, hj]
  have hloop := diff_loop_pure_reorder pf (mkKeyedTextNode ty attrs kidsL)
    kidsC 0 0 0 hmemL
  have hattrs := diff_attributes_eq_nil pf
    (mkKeyedTextNode ty attrs kidsL) (mkKeyedTextNode ty attrs kidsC)
    (by simp [mkKeyedTextNode, Node.attributes])
    (by simpa [mkKeyedTextNode, Node.attributes] using hndA)
  have hlist : diff_event_listeners pf
      (mkKeyedTextNode ty attrs kidsL) (mkKeyedTextNode ty attrs kidsC) = [] := by
    simp [diff_event_listeners, mkKeyedTextNode, Node.event_listeners]
  have hrm1 : remove_non_keyed pf
      ((mkKeyedTextNode ty attrs kidsL).children.drop 0) 0 = [] := by
    simpa [mkKeyedTextNode, Node.children] using
      remove_non_keyed_keyed_nil pf kidsL 0
  have hrm2 : remove_keyed pf (mkKeyedTextNode ty attrs kidsC).keyed_children
      (mkKeyedTextNode ty attrs kidsL).children = [] := by
    have hpresent : ∀ p ∈ kidsL, kcContains (mkKC kidsC 0) p.1 = true := by
      intro p hp
      apply kcContains_mkKC
      exact ((hperm.map Prod.fst).mem_iff).2 (List.mem_map_of_mem Prod.fst hp)
    simpa [mkKeyedTextNode, Node.keyed_children, Node.children] using
      remove_keyed_present_nil pf (mkKC kidsC 0) kidsL hpresent
  rw [diff_nodes]
  rw [hattrs, hlist]
  have hchC : (mkKeyedTextNode ty attrs kidsC).children = mkKeyedChildren kidsC := by
    simp [mkKeyedTextNode, Node.children]
  rw [hchC, hloop]
  simp at hrm1 hrm2 ⊢
  rw [hrm1, hrm2]
  simp

/-- Witness for C3: the spec's concrete scenario — keys `a`, `b`, `c` with
text payloads `1`, `2`, `3`, diffed against the rotation `c`, `a`, `b` —
yields exactly three `node_reordered` calls and no other driver call. -/
theorem diff_nodes_keyed_permutation_witness :
    diff_nodes PathFrame.root
      (mkKeyedTextNode "ul" [] [(.Str "a", "1"), (.Str "b", "2"), (.Str "c", "3")])
      (mkKeyedTextNode "ul" [] [(.Str "c", "3"), (.Str "a", "1"), (.Str "b", "2")])
    = [.node_reordered (PathFrame.root.add_key (.Str "c")) 0,
       .node_reordered (PathFrame.root.add_key (.Str "a")) 1,
       .node_reordered (PathFrame.root.add_key (.Str "b")) 2] :=
  (diff_nodes_keyed_permutation PathFrame.root "ul" []
    [(.Str "a", "1"), (.Str "b", "2"), (.Str "c", "3")]
    [(.Str "c", "3"), (.Str "a", "1"), (.Str "b", "2")]
    (by decide) (by decide) (by decide)).trans rfl

end Vdom
